import Mathlib

/-!
# Verification of `fracdiff` (fractional differencing in C)

A shallow embedding of `src/fracdiff/main.c` into Lean 4, over exact rational
arithmetic (the C code uses `float`; we model the real-number semantics of the
same operations).

The C source has two functions:

* `findWeights_ffd(d, length, threshold, useNWeights)` — allocates a
  zero-initialised array `w` of size `length`, sets `w[0] = 1`, then runs
  `while (k < length)` computing
  `w_curr = (-w[wcount-1]*(d-k+1))/k`, breaking when
  `fabsf(w_curr) <= threshold` or when `useNWeights > 0 && k >= useNWeights`,
  otherwise committing `w[wcount] = w_curr; wcount++; k++`.

* `fracDiff(series, len, d, threshold, useNWeights)` — generates the weights
  with `length = len` and for each `i` computes
  `df_temp[i] = Σ_{j=i}^{len-1} series[j] * weights[j-i]`.

We embed the loop of `findWeights_ffd` as a fuel-indexed recursion over an
explicit state (the array as a `List ℚ`, plus the counters `wcount` and `k`);
the fuel `length - k` decreases exactly as the C loop guard `k < length` does.
The inner summation loop of `fracDiff` is embedded as a tail recursion with an
accumulator, mirroring `sum += series[j] * weights[j-i]`.
-/

namespace Fracdiff

/-- The loop state of `findWeights_ffd`: the weight array `w`, the count
`wcount` of committed entries, and the loop counter `k`. -/
structure WState where
  w : List ℚ
  wcount : Nat
  k : Nat
  deriving Repr, DecidableEq

/-- The `while (k < length)` loop of `findWeights_ffd`, with fuel
`length - k`.  Each iteration computes `w_curr = (-w[wcount-1]*(d-k+1))/k`,
breaks if `|w_curr| <= threshold` or if the weight-count cap fires, and
otherwise commits `w[wcount] = w_curr` and increments both counters. -/
def findWeightsAux (d threshold : ℚ) (useNWeights : Nat) :
    Nat → WState → WState
  | 0, s => s
  | fuel + 1, s =>
    let w_curr := (-(s.w.getD (s.wcount - 1) 0) * (d - (s.k : ℚ) + 1)) / (s.k : ℚ)
    if |w_curr| ≤ threshold then s
    else if 0 < useNWeights ∧ useNWeights ≤ s.k then s
    else findWeightsAux d threshold useNWeights fuel
      ⟨s.w.set s.wcount w_curr, s.wcount + 1, s.k + 1⟩

/-- The final loop state of `findWeights_ffd`: start from the calloc-ed
zero array with `w[0] = 1`, `wcount = 1`, `k = 1`, and run the loop. -/
def findWeightsState (d : ℚ) (length : Nat) (threshold : ℚ) (useNWeights : Nat) :
    WState :=
  findWeightsAux d threshold useNWeights (length - 1)
    ⟨(List.replicate length (0 : ℚ)).set 0 1, 1, 1⟩

/-- `findWeights_ffd` from the C source: the returned weight array. -/
def findWeights_ffd (d : ℚ) (length : Nat) (threshold : ℚ) (useNWeights : Nat) :
    List ℚ :=
  (findWeightsState d length threshold useNWeights).w

/-- The number of committed weights (`wcount` at loop exit). -/
def wcountOf (d : ℚ) (length : Nat) (threshold : ℚ) (useNWeights : Nat) : Nat :=
  (findWeightsState d length threshold useNWeights).wcount

/-- The inner loop of `fracDiff`:
`for (j = i; j < len; j++) sum += series[j] * weights[j-i];`
with fuel `len - j` and accumulator `sum`. -/
def innerLoop (series weights : List ℚ) (i : Nat) :
    Nat → Nat → ℚ → ℚ
  | 0, _, sum => sum
  | fuel + 1, j, sum =>
    innerLoop series weights i fuel (j + 1)
      (sum + series.getD j 0 * weights.getD (j - i) 0)

/-- `fracDiff` from the C source: generate the weights with `length = len`,
then fill `df_temp[i]` with the dot product of the series tail starting at `i`
against the weight array. -/
def fracDiff (series : List ℚ) (len : Nat) (d threshold : ℚ)
    (useNWeights : Nat) : List ℚ :=
  let weights := findWeights_ffd d len threshold useNWeights
  (List.range len).map (fun i => innerLoop series weights i (len - i) i 0)

/-- The pure weight recurrence from the source comment
`[A] the main recurrence relation for weights`:
`w 0 = 1`, `w (k+1) = -(w k) * (d - k) / (k+1)`
(the C loop computes `w[k] = (-w[k-1]*(d-k+1))/k`). -/
def wRec (d : ℚ) : Nat → ℚ
  | 0 => 1
  | k + 1 => -(wRec d k) * (d - (k : ℚ)) / ((k : ℚ) + 1)

/-- Loop invariant for `findWeightsAux`: the array has the allocated length,
`wcount` equals `k`, `k` stays in `[1, length]`, the committed prefix holds
the recurrence values, and everything at or beyond index `wcount` is still the
calloc-ed zero. -/
def GoodState (d : ℚ) (length : Nat) (s : WState) : Prop :=
  s.w.length = length ∧ s.wcount = s.k ∧ 1 ≤ s.k ∧ s.k ≤ length ∧
    (∀ j, j < s.k → s.w.getD j 0 = wRec d j) ∧
    (∀ j, s.k ≤ j → s.w.getD j 0 = 0)

/-- The Cauchy convolution of the weight sequences for `d` and `-d`:
the coefficients of `(1-z)^d * (1-z)^(-d)`. -/
def S (d : ℚ) (m : Nat) : ℚ :=
  ∑ k ∈ Finset.range (m + 1), wRec d k * wRec (-d) (m - k)

/-! ### Bounds-checked (Option-returning) variants

The same loops, but every array read and write first checks its index
against the array length, returning `none` on any out-of-bounds access.
These are used to show the out-of-bounds branches are unreachable. -/

/-- `findWeightsAux` with every array access bounds-checked. -/
def findWeightsAuxChecked (d threshold : ℚ) (useNWeights : Nat) :
    Nat → WState → Option WState
  | 0, s => some s
  | fuel + 1, s =>
    if hread : s.wcount - 1 < s.w.length then
      let w_curr := (-(s.w.get ⟨s.wcount - 1, hread⟩) * (d - (s.k : ℚ) + 1)) /
        (s.k : ℚ)
      if |w_curr| ≤ threshold then some s
      else if 0 < useNWeights ∧ useNWeights ≤ s.k then some s
      else if s.wcount < s.w.length then
        findWeightsAuxChecked d threshold useNWeights fuel
          ⟨s.w.set s.wcount w_curr, s.wcount + 1, s.k + 1⟩
      else none
    else none

/-- `findWeights_ffd` with every array access bounds-checked, including the
initial write `w[0] = 1`. -/
def findWeightsChecked (d : ℚ) (length : Nat) (threshold : ℚ)
    (useNWeights : Nat) : Option (List ℚ) :=
  if 0 < (List.replicate length (0 : ℚ)).length then
    Option.map WState.w
      (findWeightsAuxChecked d threshold useNWeights (length - 1)
        ⟨(List.replicate length (0 : ℚ)).set 0 1, 1, 1⟩)
  else none

/-- The inner convolution loop with every array access bounds-checked. -/
def innerLoopChecked (series weights : List ℚ) (i : Nat) :
    Nat → Nat → ℚ → Option ℚ
  | 0, _, sum => some sum
  | fuel + 1, j, sum =>
    if hs : j < series.length then
      if hw : j - i < weights.length then
        innerLoopChecked series weights i fuel (j + 1)
          (sum + series.get ⟨j, hs⟩ * weights.get ⟨j - i, hw⟩)
      else none
    else none

/-- `fracDiff` with every array access bounds-checked. -/
def fracDiffChecked (series : List ℚ) (len : Nat) (d threshold : ℚ)
    (useNWeights : Nat) : Option (List ℚ) :=
  (findWeightsChecked d len threshold useNWeights).bind (fun weights =>
    (List.range len).mapM (fun i => innerLoopChecked series weights i (len - i) i 0))

/-! ## Basic properties of the weight recurrence -/

lemma wRec_succ (d : ℚ) (k : Nat) :
    wRec d (k + 1) = -(wRec d k) * (d - (k : ℚ)) / ((k : ℚ) + 1) := rfl

lemma wRec_succ_mul (d : ℚ) (k : Nat) :
    ((k : ℚ) + 1) * wRec d (k + 1) = ((k : ℚ) - d) * wRec d k := by
  have hk : ((k : ℚ) + 1) ≠ 0 := by positivity
  rw [wRec_succ]
  field_simp
  ring

lemma wRec_add_zero {d : ℚ} {k : Nat} (h : wRec d k = 0) (m : Nat) :
    wRec d (k + m) = 0 := by
  induction m with
  | zero => exact h
  | succ m ih => rw [show k + (m + 1) = (k + m) + 1 from rfl, wRec_succ, ih]; ring

lemma wRec_zero_of_zero {d : ℚ} {k : Nat} (h : wRec d k = 0) {j : Nat}
    (hj : k ≤ j) : wRec d j = 0 := by
  have := wRec_add_zero h (j - k)
  rwa [Nat.add_sub_cancel' hj] at this

lemma wRec_ne_zero {d : ℚ} (hd : ∀ n : Nat, d ≠ (n : ℚ)) : ∀ k, wRec d k ≠ 0 := by
  intro k
  induction k with
  | zero => norm_num [wRec]
  | succ k ih =>
    rw [wRec_succ]
    have h1 : d - (k : ℚ) ≠ 0 := sub_ne_zero.mpr (hd k)
    have h2 : ((k : ℚ) + 1) ≠ 0 := by positivity
    exact div_ne_zero (mul_ne_zero (neg_ne_zero.mpr ih) h1) h2

/-- The value `w_curr = (-w[wcount-1]*(d-k+1))/k` computed by the loop body
equals `wRec d k` when `w[wcount-1]` holds `wRec d (k-1)`. -/
lemma w_curr_eq (d : ℚ) {k : Nat} (hk : 1 ≤ k) :
    (-(wRec d (k - 1)) * (d - (k : ℚ) + 1)) / (k : ℚ) = wRec d k := by
  obtain ⟨m, rfl⟩ : ∃ m, k = m + 1 := ⟨k - 1, by omega⟩
  simp only [Nat.add_sub_cancel, wRec_succ]
  push_cast
  ring

/-! ## List helper lemmas -/

lemma getD_set_ne (l : List ℚ) {n m : Nat} (a : ℚ) (h : n ≠ m) :
    (l.set n a).getD m 0 = l.getD m 0 := by
  simp [List.getD_eq_getElem?_getD, List.getElem?_set_ne h]

lemma getD_set_eq (l : List ℚ) {n : Nat} (a : ℚ) (h : n < l.length) :
    (l.set n a).getD n 0 = a := by
  simp [List.getD_eq_getElem?_getD, List.getElem?_set_eq_of_lt a h]

lemma getD_replicate_zero (length j : Nat) :
    (List.replicate length (0 : ℚ)).getD j 0 = 0 := by
  simp only [List.getD_eq_getElem?_getD, List.getElem?_replicate]
  split <;> rfl

/-! ## The loop invariant of `findWeights_ffd` -/

/-- Master specification of the `while (k < length)` loop: it preserves the
invariant, only increases `k`, exits for one of the three possible reasons
(fuel exhausted i.e. `k = length`, magnitude break, or cap break), and never
breaks at any index strictly before the final one. -/
lemma findWeightsAux_spec (d threshold : ℚ) (useN : Nat) (length : Nat) :
    ∀ fuel (s : WState), GoodState d length s → fuel + s.k = length →
      GoodState d length (findWeightsAux d threshold useN fuel s) ∧
      s.k ≤ (findWeightsAux d threshold useN fuel s).k ∧
      ((findWeightsAux d threshold useN fuel s).k = length ∨
        |wRec d (findWeightsAux d threshold useN fuel s).k| ≤ threshold ∨
        (0 < useN ∧ useN ≤ (findWeightsAux d threshold useN fuel s).k)) ∧
      (∀ m, s.k ≤ m → m < (findWeightsAux d threshold useN fuel s).k →
        threshold < |wRec d m| ∧ ¬(0 < useN ∧ useN ≤ m)) := by
  intro fuel
  induction fuel with
  | zero =>
    intro s hs hf
    simp only [findWeightsAux]
    exact ⟨hs, le_refl _, Or.inl (by omega), fun m hm hm' => by omega⟩
  | succ fuel ih =>
    intro s hs hf
    obtain ⟨hlen, hwc, hk1, hkl, hpre, hpost⟩ := hs
    have hklt : s.k < length := by omega
    have hcurr : (-(s.w.getD (s.wcount - 1) 0) * (d - (s.k : ℚ) + 1)) / (s.k : ℚ)
        = wRec d s.k := by
      rw [hwc, hpre (s.k - 1) (by omega)]
      exact w_curr_eq d hk1
    simp only [findWeightsAux, hcurr]
    split_ifs with h1 h2
    · exact ⟨⟨hlen, hwc, hk1, hkl, hpre, hpost⟩, le_refl _, Or.inr (Or.inl h1),
        fun m hm hm' => by omega⟩
    · exact ⟨⟨hlen, hwc, hk1, hkl, hpre, hpost⟩, le_refl _, Or.inr (Or.inr h2),
        fun m hm hm' => by omega⟩
    · have hwlen : s.w.length = length := hlen
      have hgood : GoodState d length
          ⟨s.w.set s.wcount (wRec d s.k), s.wcount + 1, s.k + 1⟩ := by
        refine ⟨show (s.w.set s.wcount (wRec d s.k)).length = length by
            simpa using hlen,
          show s.wcount + 1 = s.k + 1 by omega,
          show 1 ≤ s.k + 1 by omega,
          show s.k + 1 ≤ length by omega, ?_, ?_⟩
        · show ∀ j, j < s.k + 1 → (s.w.set s.wcount (wRec d s.k)).getD j 0 = wRec d j
          intro j hj
          rcases Nat.lt_or_ge j s.k with hlt | hge
          · rw [getD_set_ne _ _ (show s.wcount ≠ j by omega)]
            exact hpre j hlt
          · have hje : j = s.k := by omega
            subst hje
            rw [hwc]
            exact getD_set_eq s.w _ (by omega)
        · show ∀ j, s.k + 1 ≤ j → (s.w.set s.wcount (wRec d s.k)).getD j 0 = 0
          intro j hj
          rw [getD_set_ne _ _ (show s.wcount ≠ j by omega)]
          exact hpost j (by omega)
      have hfuel : fuel + (s.k + 1) = length := by omega
      obtain ⟨g', mono', stop', noearly'⟩ :=
        ih ⟨s.w.set s.wcount (wRec d s.k), s.wcount + 1, s.k + 1⟩ hgood hfuel
      have mono2 : s.k + 1 ≤
          (findWeightsAux d threshold useN fuel
            ⟨s.w.set s.wcount (wRec d s.k), s.wcount + 1, s.k + 1⟩).k := mono'
      have noearly2 : ∀ m, s.k + 1 ≤ m →
          m < (findWeightsAux d threshold useN fuel
            ⟨s.w.set s.wcount (wRec d s.k), s.wcount + 1, s.k + 1⟩).k →
          threshold < |wRec d m| ∧ ¬(0 < useN ∧ useN ≤ m) := noearly'
      refine ⟨g', le_trans (by omega) mono2, stop', ?_⟩
      intro m hm hmlt
      rcases Nat.eq_or_lt_of_le hm with he | hlt2
      · subst he
        exact ⟨not_le.mp h1, h2⟩
      · exact noearly2 m (by omega) hmlt

/-! ## Properties of the final state of `findWeights_ffd` -/

lemma initial_good (d : ℚ) {length : Nat} (hlen : 1 ≤ length) :
    GoodState d length ⟨(List.replicate length (0 : ℚ)).set 0 1, 1, 1⟩ := by
  refine ⟨show ((List.replicate length (0 : ℚ)).set 0 1).length = length by
      simp,
    rfl, le_refl 1, hlen, ?_, ?_⟩
  · show ∀ j, j < 1 → ((List.replicate length (0 : ℚ)).set 0 1).getD j 0 = wRec d j
    intro j hj
    have hj0 : j = 0 := by omega
    subst hj0
    rw [getD_set_eq _ _ (by simpa using hlen)]
    rfl
  · show ∀ j, 1 ≤ j → ((List.replicate length (0 : ℚ)).set 0 1).getD j 0 = 0
    intro j hj
    rw [getD_set_ne _ _ (show 0 ≠ j by omega)]
    exact getD_replicate_zero length j

lemma findWeightsState_spec (d threshold : ℚ) (useN : Nat) {length : Nat}
    (hlen : 1 ≤ length) :
    GoodState d length (findWeightsState d length threshold useN) ∧
      ((findWeightsState d length threshold useN).k = length ∨
        |wRec d (findWeightsState d length threshold useN).k| ≤ threshold ∨
        (0 < useN ∧ useN ≤ (findWeightsState d length threshold useN).k)) ∧
      (∀ m, 1 ≤ m → m < (findWeightsState d length threshold useN).k →
        threshold < |wRec d m| ∧ ¬(0 < useN ∧ useN ≤ m)) := by
  have hfuel : (length - 1) + (1 : Nat) = length := by omega
  obtain ⟨g, mono, stop, noearly⟩ :=
    findWeightsAux_spec d threshold useN length (length - 1)
      ⟨(List.replicate length (0 : ℚ)).set 0 1, 1, 1⟩ (initial_good d hlen) hfuel
  exact ⟨g, stop, noearly⟩

lemma wcountOf_eq_k (d threshold : ℚ) (useN : Nat) {length : Nat}
    (hlen : 1 ≤ length) :
    wcountOf d length threshold useN = (findWeightsState d length threshold useN).k :=
  ((findWeightsState_spec d threshold useN hlen).1).2.1

lemma wcountOf_pos (d threshold : ℚ) (useN : Nat) {length : Nat}
    (hlen : 1 ≤ length) : 1 ≤ wcountOf d length threshold useN := by
  rw [wcountOf_eq_k d threshold useN hlen]
  exact ((findWeightsState_spec d threshold useN hlen).1).2.2.1

lemma wcountOf_le_length (d threshold : ℚ) (useN : Nat) {length : Nat}
    (hlen : 1 ≤ length) : wcountOf d length threshold useN ≤ length := by
  rw [wcountOf_eq_k d threshold useN hlen]
  exact ((findWeightsState_spec d threshold useN hlen).1).2.2.2.1

/-- Committed entries of the weight array hold the recurrence values. -/
lemma findWeights_getD_lt (d threshold : ℚ) (useN : Nat) {length j : Nat}
    (hlen : 1 ≤ length) (hj : j < wcountOf d length threshold useN) :
    (findWeights_ffd d length threshold useN).getD j 0 = wRec d j := by
  have h := ((findWeightsState_spec d threshold useN hlen).1).2.2.2.2.1 j
  rw [wcountOf_eq_k d threshold useN hlen] at hj
  exact h hj

/-- Entries at or beyond `wcount` are still the calloc-ed zero. -/
lemma findWeights_getD_ge (d threshold : ℚ) (useN : Nat) {length j : Nat}
    (hlen : 1 ≤ length) (hj : wcountOf d length threshold useN ≤ j) :
    (findWeights_ffd d length threshold useN).getD j 0 = 0 := by
  have h := ((findWeightsState_spec d threshold useN hlen).1).2.2.2.2.2 j
  rw [wcountOf_eq_k d threshold useN hlen] at hj
  exact h hj

/-- The loop exits because `k` reached `length`, because the magnitude rule
fired at the exit index, or because the weight-count cap fired there. -/
lemma findWeights_stop (d threshold : ℚ) (useN : Nat) {length : Nat}
    (hlen : 1 ≤ length) :
    wcountOf d length threshold useN = length ∨
      |wRec d (wcountOf d length threshold useN)| ≤ threshold ∨
      (0 < useN ∧ useN ≤ wcountOf d length threshold useN) := by
  rw [wcountOf_eq_k d threshold useN hlen]
  exact (findWeightsState_spec d threshold useN hlen).2.1

/-- Neither break condition holds at any committed index `1 ≤ m < wcount`. -/
lemma findWeights_no_early (d threshold : ℚ) (useN : Nat) {length m : Nat}
    (hlen : 1 ≤ length) (hm : 1 ≤ m) (hm2 : m < wcountOf d length threshold useN) :
    threshold < |wRec d m| ∧ ¬(0 < useN ∧ useN ≤ m) := by
  rw [wcountOf_eq_k d threshold useN hlen] at hm2
  exact (findWeightsState_spec d threshold useN hlen).2.2 m hm hm2

/-- The weight array keeps the allocated length. -/
lemma findWeights_length (d threshold : ℚ) (useN : Nat) {length : Nat}
    (hlen : 1 ≤ length) :
    (findWeights_ffd d length threshold useN).length = length :=
  ((findWeightsState_spec d threshold useN hlen).1).1

/-- With `threshold = 0` and no cap, every position of the returned weight
array (committed or not) holds the true recurrence value `wRec d j`. -/
lemma findWeights_full (d : ℚ) {length j : Nat} (hlen : 1 ≤ length)
    (hj : j < length) :
    (findWeights_ffd d length 0 0).getD j 0 = wRec d j := by
  rcases Nat.lt_or_ge j (wcountOf d length 0 0) with hlt | hge
  · exact findWeights_getD_lt d 0 0 hlen hlt
  · rw [findWeights_getD_ge d 0 0 hlen hge]
    rcases findWeights_stop d 0 0 hlen with hstop | hstop | hstop
    · omega
    · have hz : wRec d (wcountOf d length 0 0) = 0 := abs_nonpos_iff.mp hstop
      exact (wRec_zero_of_zero hz hge).symm
    · exact absurd hstop.1 (lt_irrefl 0)

/-! ## The convolution of `fracDiff` as a finite sum -/

lemma innerLoop_eq_sum (series weights : List ℚ) (i : Nat) :
    ∀ fuel j sum, innerLoop series weights i fuel j sum =
      sum + ∑ t ∈ Finset.range fuel,
        series.getD (j + t) 0 * weights.getD (j + t - i) 0 := by
  intro fuel
  induction fuel with
  | zero => intro j sum; simp [innerLoop]
  | succ fuel ih =>
    intro j sum
    rw [innerLoop, ih (j + 1), Finset.sum_range_succ']
    have hre : ∀ t, j + 1 + t = j + (t + 1) := by intro t; omega
    rw [Finset.sum_congr rfl
      (fun t _ => by rw [hre t] :
        ∀ t ∈ Finset.range fuel,
          series.getD (j + 1 + t) 0 * weights.getD (j + 1 + t - i) 0 =
          series.getD (j + (t + 1)) 0 * weights.getD (j + (t + 1) - i) 0)]
    ring_nf
    simp [add_assoc, add_comm, add_left_comm]

/-- The output list of `fracDiff` has the input length. -/
lemma fracDiff_length (series : List ℚ) (len : Nat) (d threshold : ℚ)
    (useN : Nat) : (fracDiff series len d threshold useN).length = len := by
  simp [fracDiff]

/-- Entry `i` of the `fracDiff` output is the dot product
`Σ_{j ∈ [i, len)} series[j] * weights[j-i]` from the C double loop. -/
lemma fracDiff_getD (series : List ℚ) (len : Nat) (d threshold : ℚ)
    (useN : Nat) {i : Nat} (hi : i < len) :
    (fracDiff series len d threshold useN).getD i 0 =
      ∑ j ∈ Finset.Ico i len,
        series.getD j 0 *
          (findWeights_ffd d len threshold useN).getD (j - i) 0 := by
  have hmap : (fracDiff series len d threshold useN)[i]? =
      some (innerLoop series (findWeights_ffd d len threshold useN) i
        (len - i) i 0) := by
    rw [fracDiff]
    rw [List.getElem?_map, List.getElem?_range hi]
    rfl
  rw [List.getD_eq_getElem?_getD, hmap]
  rw [innerLoop_eq_sum, Finset.sum_Ico_eq_sum_range]
  simp

/-- With `threshold = 0` and no cap the convolution uses the true recurrence
weights at every position. -/
lemma fracDiff_full_getD (series : List ℚ) {len : Nat} (d : ℚ)
    (hlen : 1 ≤ len) {i : Nat} (hi : i < len) :
    (fracDiff series len d 0 0).getD i 0 =
      ∑ j ∈ Finset.Ico i len, series.getD j 0 * wRec d (j - i) := by
  rw [fracDiff_getD series len d 0 0 hi]
  refine Finset.sum_congr rfl ?_
  intro j hj
  have hj' := Finset.mem_Ico.mp hj
  rw [findWeights_full d hlen (show j - i < len by omega)]

/-! ## The convolution identity for the inverse weights -/

lemma S_zero (d : ℚ) : S d 0 = 1 := by simp [S, wRec]

lemma S_rec (d : ℚ) (m : Nat) :
    ((m : ℚ) + 1) * S d (m + 1) = (m : ℚ) * S d m := by
  have hA : ∑ k ∈ Finset.range (m + 1 + 1),
      (k : ℚ) * (wRec d k * wRec (-d) (m + 1 - k)) =
      ∑ j ∈ Finset.range (m + 1),
        ((j : ℚ) - d) * wRec d j * wRec (-d) (m - j) := by
    rw [Finset.sum_range_succ']
    simp only [Nat.cast_zero, zero_mul, add_zero]
    refine Finset.sum_congr rfl ?_
    intro j hj
    have hidx : m + 1 - (j + 1) = m - j := by omega
    rw [hidx]
    push_cast
    calc ((j : ℚ) + 1) * (wRec d (j + 1) * wRec (-d) (m - j))
        = (((j : ℚ) + 1) * wRec d (j + 1)) * wRec (-d) (m - j) := by ring
      _ = (((j : ℚ) - d) * wRec d j) * wRec (-d) (m - j) := by
          rw [wRec_succ_mul]
      _ = ((j : ℚ) - d) * wRec d j * wRec (-d) (m - j) := by ring
  have hB : ∑ k ∈ Finset.range (m + 1 + 1),
      ((m + 1 - k : Nat) : ℚ) * (wRec d k * wRec (-d) (m + 1 - k)) =
      ∑ k ∈ Finset.range (m + 1),
        ((m : ℚ) - (k : ℚ) + d) * wRec d k * wRec (-d) (m - k) := by
    rw [Finset.sum_range_succ]
    simp only [Nat.sub_self, Nat.cast_zero, zero_mul, add_zero]
    refine Finset.sum_congr rfl ?_
    intro k hk
    have hkle : k ≤ m := by
      have := Finset.mem_range.mp hk
      omega
    have hidx : m + 1 - k = (m - k) + 1 := by omega
    rw [hidx]
    have hcast : (((m - k) + 1 : Nat) : ℚ) = ((m - k : Nat) : ℚ) + 1 := by
      push_cast
      ring
    rw [hcast]
    calc (((m - k : Nat) : ℚ) + 1) * (wRec d k * wRec (-d) ((m - k) + 1))
        = wRec d k * ((((m - k) : Nat) : ℚ) + 1) * wRec (-d) ((m - k) + 1) := by
          ring
      _ = wRec d k * (((((m - k) : Nat) : ℚ) + 1) * wRec (-d) ((m - k) + 1)) := by
          ring
      _ = wRec d k * (((((m - k) : Nat) : ℚ) - (-d)) * wRec (-d) (m - k)) := by
          rw [wRec_succ_mul]
      _ = ((m : ℚ) - (k : ℚ) + d) * wRec d k * wRec (-d) (m - k) := by
          rw [Nat.cast_sub hkle]
          ring
  calc ((m : ℚ) + 1) * S d (m + 1)
      = ∑ k ∈ Finset.range (m + 1 + 1),
          ((m : ℚ) + 1) * (wRec d k * wRec (-d) (m + 1 - k)) := by
        rw [S, Finset.mul_sum]
    _ = ∑ k ∈ Finset.range (m + 1 + 1),
          ((k : ℚ) * (wRec d k * wRec (-d) (m + 1 - k)) +
            ((m + 1 - k : Nat) : ℚ) * (wRec d k * wRec (-d) (m + 1 - k))) := by
        refine Finset.sum_congr rfl ?_
        intro k hk
        have hkle : k ≤ m + 1 := by
          have := Finset.mem_range.mp hk
          omega
        rw [Nat.cast_sub hkle]
        push_cast
        ring
    _ = (∑ k ∈ Finset.range (m + 1 + 1),
          (k : ℚ) * (wRec d k * wRec (-d) (m + 1 - k))) +
        ∑ k ∈ Finset.range (m + 1 + 1),
          ((m + 1 - k : Nat) : ℚ) * (wRec d k * wRec (-d) (m + 1 - k)) :=
        Finset.sum_add_distrib
    _ = (∑ j ∈ Finset.range (m + 1),
          ((j : ℚ) - d) * wRec d j * wRec (-d) (m - j)) +
        ∑ k ∈ Finset.range (m + 1),
          ((m : ℚ) - (k : ℚ) + d) * wRec d k * wRec (-d) (m - k) := by
        rw [hA, hB]
    _ = ∑ j ∈ Finset.range (m + 1), (m : ℚ) * (wRec d j * wRec (-d) (m - j)) := by
        rw [← Finset.sum_add_distrib]
        refine Finset.sum_congr rfl ?_
        intro j hj
        ring
    _ = (m : ℚ) * S d m := by rw [S, Finset.mul_sum]

/-- The convolution of the `d` and `-d` weight sequences vanishes at every
positive index: fractional differencing and integration are exact inverses. -/
lemma S_succ_zero (d : ℚ) : ∀ m, S d (m + 1) = 0 := by
  intro m
  induction m with
  | zero =>
    have h := S_rec d 0
    rw [S_zero] at h
    norm_num at h
    exact h
  | succ m ih =>
    have h := S_rec d (m + 1)
    rw [ih, mul_zero] at h
    have hne : (((m + 1 : Nat) : ℚ) + 1) ≠ 0 := by positivity
    rcases mul_eq_zero.mp h with hc | hs
    · exact absurd hc hne
    · exact hs

/-- Reindexing of the inner diagonal sum as the convolution `S`. -/
lemma sum_wRec_conv (d : ℚ) {i l : Nat} (h : i ≤ l) :
    ∑ j ∈ Finset.Ico i (l + 1), wRec d (l - j) * wRec (-d) (j - i) =
      S d (l - i) := by
  rw [Finset.sum_Ico_eq_sum_range]
  have hn : l + 1 - i = (l - i) + 1 := by omega
  rw [hn]
  have hcong : ∀ t ∈ Finset.range ((l - i) + 1),
      wRec d (l - (i + t)) * wRec (-d) (i + t - i) =
      wRec d ((l - i) - t) * wRec (-d) t := by
    intro t ht
    have ht' := Finset.mem_range.mp ht
    have h1 : l - (i + t) = (l - i) - t := by omega
    have h2 : i + t - i = t := by omega
    rw [h1, h2]
  rw [Finset.sum_congr rfl hcong, S]
  rw [← Finset.sum_range_reflect
    (fun t => wRec d t * wRec (-d) ((l - i) - t)) ((l - i) + 1)]
  refine Finset.sum_congr rfl ?_
  intro j hj
  have hj' := Finset.mem_range.mp hj
  have h3 : (l - i) + 1 - 1 - j = (l - i) - j := by omega
  have h4 : (l - i) - ((l - i) - j) = j := by omega
  rw [h3, h4]

/-- Element-wise exact round trip: differencing by `d` then by `-d` restores
every entry. -/
lemma fracDiff_roundtrip_getD (series : List ℚ) {len : Nat} (d : ℚ)
    (hlen : 1 ≤ len) {i : Nat} (hi : i < len) :
    (fracDiff (fracDiff series len d 0 0) len (-d) 0 0).getD i 0 =
      series.getD i 0 := by
  rw [fracDiff_full_getD _ (-d) hlen hi]
  have hstep : ∀ j ∈ Finset.Ico i len,
      (fracDiff series len d 0 0).getD j 0 * wRec (-d) (j - i) =
      ∑ l ∈ Finset.Ico j len,
        series.getD l 0 * wRec d (l - j) * wRec (-d) (j - i) := by
    intro j hj
    have hj' := Finset.mem_Ico.mp hj
    rw [fracDiff_full_getD series d hlen hj'.2, Finset.sum_mul]
  rw [Finset.sum_congr rfl hstep]
  rw [Finset.sum_Ico_Ico_comm]
  have hstep3 : ∀ l ∈ Finset.Ico i len,
      (∑ j ∈ Finset.Ico i (l + 1),
        series.getD l 0 * wRec d (l - j) * wRec (-d) (j - i)) =
      series.getD l 0 * S d (l - i) := by
    intro l hl
    have hl' := Finset.mem_Ico.mp hl
    calc (∑ j ∈ Finset.Ico i (l + 1),
          series.getD l 0 * wRec d (l - j) * wRec (-d) (j - i))
        = series.getD l 0 *
            ∑ j ∈ Finset.Ico i (l + 1), wRec d (l - j) * wRec (-d) (j - i) := by
          rw [Finset.mul_sum]
          exact Finset.sum_congr rfl (fun j _ => by ring)
      _ = series.getD l 0 * S d (l - i) := by rw [sum_wRec_conv d hl'.1]
  rw [Finset.sum_congr rfl hstep3]
  have hmem : i ∈ Finset.Ico i len := Finset.mem_Ico.mpr ⟨le_refl i, hi⟩
  have hzero : ∀ l ∈ Finset.Ico i len, l ≠ i →
      series.getD l 0 * S d (l - i) = 0 := by
    intro l hl hne
    have hl' := Finset.mem_Ico.mp hl
    obtain ⟨m, hm⟩ : ∃ m, l - i = m + 1 := ⟨l - i - 1, by omega⟩
    rw [hm, S_succ_zero, mul_zero]
  rw [Finset.sum_eq_single_of_mem i hmem hzero, Nat.sub_self, S_zero, mul_one]

/-- `getD` agrees with `getElem` inside the bounds. -/
lemma getD_eq_getElem (l : List ℚ) {i : Nat} (h : i < l.length) :
    l.getD i 0 = l[i] := by
  rw [List.getD_eq_getElem?_getD, List.getElem?_eq_getElem h]
  rfl

/-- Two lists of rationals with the same length and the same `getD` values
inside the bounds are equal. -/
lemma list_eq_of_getD {l l' : List ℚ} (hlen : l.length = l'.length)
    (h : ∀ i, i < l.length → l.getD i 0 = l'.getD i 0) : l = l' := by
  apply List.ext_getElem hlen
  intro i h1 h2
  have hv := h i h1
  rwa [getD_eq_getElem l h1, getD_eq_getElem l' h2] at hv

/-! ## Special values of the weight recurrence -/

lemma wRec_one_val (d : ℚ) : wRec d 1 = -d := by
  show -(wRec d 0) * (d - ((0 : Nat) : ℚ)) / (((0 : Nat) : ℚ) + 1) = -d
  norm_num [wRec]

/-- For `d = 1` the weights are `1, -1, 0, 0, …`: ordinary differencing. -/
lemma wRec_d_one : wRec (1 : ℚ) 1 = -1 ∧ ∀ t, wRec (1 : ℚ) (t + 2) = 0 := by
  constructor
  · rw [wRec_one_val]
  · intro t
    have h2 : wRec (1 : ℚ) 2 = 0 := by
      show -(wRec 1 1) * ((1 : ℚ) - ((1 : Nat) : ℚ)) / (((1 : Nat) : ℚ) + 1) = 0
      rw [wRec_one_val]
      norm_num
    exact wRec_zero_of_zero h2 (by omega)

/-- For `d = -1` every weight equals `1`: cumulative summation. -/
lemma wRec_neg_one : ∀ t, wRec (-1 : ℚ) t = 1 := by
  intro t
  induction t with
  | zero => rfl
  | succ t ih =>
    rw [wRec_succ, ih]
    have ht : ((t : ℚ) + 1) ≠ 0 := by positivity
    field_simp

/-- The last output entry of `fracDiff` (threshold `0`, no cap) is the last
input entry: the convolution at `i = len-1` has a single term
`series[len-1] * weight[0]`. -/
lemma fracDiff_last_getD (series : List ℚ) {len : Nat} (d : ℚ)
    (hlen : 1 ≤ len) :
    (fracDiff series len d 0 0).getD (len - 1) 0 = series.getD (len - 1) 0 := by
  rw [fracDiff_full_getD series d hlen (show len - 1 < len by omega)]
  have hico : Finset.Ico (len - 1) len = {len - 1} := by
    rw [show len = (len - 1) + 1 by omega]
    simp
  rw [hico, Finset.sum_singleton, Nat.sub_self]
  rw [show wRec d 0 = (1 : ℚ) from rfl, mul_one]

/-! ## The bounds-checked variants never hit their out-of-bounds branches -/

lemma findWeightsAuxChecked_eq (d threshold : ℚ) (useN : Nat) :
    ∀ fuel (s : WState), s.wcount = s.k → 1 ≤ s.k → fuel + s.k ≤ s.w.length →
      findWeightsAuxChecked d threshold useN fuel s =
        some (findWeightsAux d threshold useN fuel s) := by
  intro fuel
  induction fuel with
  | zero => intro s h1 h2 h3; rfl
  | succ fuel ih =>
    intro s h1 h2 h3
    have hread : s.wcount - 1 < s.w.length := by omega
    have hval : s.w.get ⟨s.wcount - 1, hread⟩ = s.w.getD (s.wcount - 1) 0 := by
      rw [List.get_eq_getElem, getD_eq_getElem s.w hread]
    simp only [findWeightsAuxChecked, findWeightsAux, dif_pos hread, hval]
    split_ifs with hc1 hc2 hc3
    · rfl
    · rfl
    · exact ih _ (show s.wcount + 1 = s.k + 1 by omega)
        (show 1 ≤ s.k + 1 by omega)
        (by simp only [List.length_set]; omega)
    · omega

lemma findWeightsChecked_eq (d threshold : ℚ) (useN : Nat) {length : Nat}
    (hlen : 1 ≤ length) :
    findWeightsChecked d length threshold useN =
      some (findWeights_ffd d length threshold useN) := by
  rw [findWeightsChecked, if_pos (by simpa using hlen)]
  rw [findWeightsAuxChecked_eq d threshold useN (length - 1) _ rfl (le_refl 1)
    (by simp only [List.length_set, List.length_replicate]; omega)]
  rfl

lemma innerLoopChecked_eq (series weights : List ℚ) (i : Nat)
    (hw : weights.length = series.length) :
    ∀ fuel j sum, i ≤ j → j + fuel ≤ series.length →
      innerLoopChecked series weights i fuel j sum =
        some (innerLoop series weights i fuel j sum) := by
  intro fuel
  induction fuel with
  | zero => intro j sum h1 h2; rfl
  | succ fuel ih =>
    intro j sum h1 h2
    have hs : j < series.length := by omega
    have hwb : j - i < weights.length := by omega
    have hv1 : series.get ⟨j, hs⟩ = series.getD j 0 := by
      rw [List.get_eq_getElem, getD_eq_getElem series hs]
    have hv2 : weights.get ⟨j - i, hwb⟩ = weights.getD (j - i) 0 := by
      rw [List.get_eq_getElem, getD_eq_getElem weights hwb]
    simp only [innerLoopChecked, innerLoop, dif_pos hs, dif_pos hwb, hv1, hv2]
    exact ih (j + 1) _ (by omega) (by omega)

lemma mapM_option_eq_map {α β : Type} (g : α → Option β) (f : α → β) :
    ∀ l : List α, (∀ a ∈ l, g a = some (f a)) → l.mapM g = some (l.map f) := by
  intro l
  induction l with
  | nil => intro h; rfl
  | cons a l ih =>
    intro h
    rw [List.map_cons, List.mapM_cons, h a (List.mem_cons_self a l),
      ih (fun b hb => h b (List.mem_cons_of_mem a hb))]
    rfl

lemma fracDiffChecked_eq (series : List ℚ) {len : Nat} (d threshold : ℚ)
    (useN : Nat) (hser : series.length = len) (hlen : 1 ≤ len) :
    fracDiffChecked series len d threshold useN =
      some (fracDiff series len d threshold useN) := by
  rw [fracDiffChecked, findWeightsChecked_eq d threshold useN hlen,
    Option.some_bind]
  rw [mapM_option_eq_map _
    (fun i => innerLoop series (findWeights_ffd d len threshold useN) i
      (len - i) i 0)
    (List.range len) ?_]
  · rfl
  · intro i hi
    have hi' := List.mem_range.mp hi
    exact innerLoopChecked_eq series _ i
      (by rw [findWeights_length d threshold useN hlen, hser]) (len - i) i 0
      (le_refl i) (by omega)

/-! ## The claims -/

/-- Claim C1, as stated, is false: with `threshold = 0` the break
`|w_curr| <= threshold` fires as soon as a weight is exactly zero, which
happens for the integer order `d = 1` at `k = 2` (with `length = 3` and no
cap the loop exits at `k = 2`, not `k = 3`). -/
theorem C1_counterexample :
    ¬ ((findWeightsState 1 3 0 0).k = 3 ∨
        (0 < (0 : Nat) ∧ (0 : Nat) ≤ (findWeightsState 1 3 0 0).k)) := by
  norm_num [findWeightsState, findWeightsAux]

/-- Claim C1 (amended): with `threshold = 0`, the magnitude rule stops
generation only when the current weight is exactly zero, which can happen
only when `d` is a nonnegative integer; for every `d` that is not a
nonnegative integer, generation continues until `k` reaches `length`, unless
the `useNWeights` cap fires. -/
theorem C1_threshold_zero_runs_to_length (d : ℚ) (length useNWeights : Nat)
    (hlen : 1 ≤ length) (hd : ∀ n : Nat, d ≠ (n : ℚ)) :
    (findWeightsState d length 0 useNWeights).k = length ∨
      (0 < useNWeights ∧
        useNWeights ≤ (findWeightsState d length 0 useNWeights).k) := by
  rcases (findWeightsState_spec d 0 useNWeights hlen).2.1 with h | h | h
  · exact Or.inl h
  · exact absurd (abs_nonpos_iff.mp h) (wRec_ne_zero hd _)
  · exact Or.inr h

/-- Witness for C1 at `d = 1/2`, `length = 3`, no cap. -/
theorem C1_witness :
    (findWeightsState (1/2) 3 0 0).k = 3 ∨
      (0 < (0 : Nat) ∧ (0 : Nat) ≤ (findWeightsState (1/2) 3 0 0).k) :=
  C1_threshold_zero_runs_to_length (1/2) 3 0 (by norm_num) (by
    intro n h
    rcases Nat.eq_zero_or_pos n with hn | hn
    · subst hn
      norm_num at h
    · have h1 : (1 : ℚ) ≤ (n : ℚ) := by exact_mod_cast hn
      rw [← h] at h1
      norm_num at h1)

/-- Claim C2: for every series of length `len ≥ 1` and every `d`, applying
`fracDiff` with order `d` (threshold 0, no cap) and then with order `-d`
returns the original series element-wise: `-d` inverts a prior application
of `d` exactly (in exact arithmetic). -/
theorem C2_neg_d_inverts (series : List ℚ) (len : Nat) (d : ℚ)
    (hser : series.length = len) (hlen : 1 ≤ len) :
    fracDiff (fracDiff series len d 0 0) len (-d) 0 0 = series := by
  apply list_eq_of_getD
  · rw [fracDiff_length, hser]
  · intro i hi
    rw [fracDiff_length] at hi
    exact fracDiff_roundtrip_getD series d hlen hi

/-- Witness for C2 at `series = [2, 1, 3]`, `d = 1/2`. -/
theorem C2_witness :
    fracDiff (fracDiff [2, 1, 3] 3 (1/2) 0 0) 3 (-(1/2)) 0 0 = [2, 1, 3] :=
  C2_neg_d_inverts [2, 1, 3] 3 (1/2) rfl (by norm_num)

/-- Claim C3: for all parameters, `weight[0] = 1`, and every committed weight
at index `k ≥ 1` equals `-weight[k-1] * (d - k + 1) / k`. -/
theorem C3_weight_recurrence (d threshold : ℚ) (length useNWeights k : Nat)
    (hlen : 1 ≤ length) (hk1 : 1 ≤ k)
    (hk2 : k < wcountOf d length threshold useNWeights) :
    (findWeights_ffd d length threshold useNWeights).getD 0 0 = 1 ∧
    (findWeights_ffd d length threshold useNWeights).getD k 0 =
      -((findWeights_ffd d length threshold useNWeights).getD (k - 1) 0) *
        (d - (k : ℚ) + 1) / (k : ℚ) := by
  constructor
  · rw [findWeights_getD_lt d threshold useNWeights hlen
      (lt_of_lt_of_le Nat.zero_lt_one
        (wcountOf_pos d threshold useNWeights hlen))]
    rfl
  · rw [findWeights_getD_lt d threshold useNWeights hlen hk2,
      findWeights_getD_lt d threshold useNWeights hlen (by omega)]
    exact (w_curr_eq d hk1).symm

/-- Witness for C3 at `d = 1/2`, `length = 4`, `k = 2`. -/
theorem C3_witness :
    (findWeights_ffd (1/2) 4 0 0).getD 0 0 = 1 ∧
    (findWeights_ffd (1/2) 4 0 0).getD 2 0 =
      -((findWeights_ffd (1/2) 4 0 0).getD (2 - 1) 0) *
        ((1/2 : ℚ) - ((2 : Nat) : ℚ) + 1) / ((2 : Nat) : ℚ) :=
  C3_weight_recurrence (1/2) 0 4 0 2 (by norm_num) (by norm_num)
    (by norm_num [wcountOf, findWeightsState, findWeightsAux])

/-- Claim C4: the output of `fracDiff` has exactly `len` elements, and entry
`i` equals `Σ_{j ∈ [i, len)} series[j] * weight[j-i]`, where the weights are
generated with `length = len`. -/
theorem C4_output_formula (series : List ℚ) (len : Nat) (d threshold : ℚ)
    (useNWeights i : Nat) (_hser : series.length = len) (hi : i < len) :
    (fracDiff series len d threshold useNWeights).length = len ∧
    (fracDiff series len d threshold useNWeights).getD i 0 =
      ∑ j ∈ Finset.Ico i len,
        series.getD j 0 *
          (findWeights_ffd d len threshold useNWeights).getD (j - i) 0 :=
  ⟨fracDiff_length series len d threshold useNWeights,
    fracDiff_getD series len d threshold useNWeights hi⟩

/-- Witness for C4 at `series = [2, 1]`, `d = 1/2`, `i = 0`. -/
theorem C4_witness :
    (fracDiff [2, 1] 2 (1/2) 0 0).length = 2 ∧
    (fracDiff [2, 1] 2 (1/2) 0 0).getD 0 0 =
      ∑ j ∈ Finset.Ico 0 2,
        ([2, 1] : List ℚ).getD j 0 *
          (findWeights_ffd (1/2) 2 0 0).getD (j - 0) 0 :=
  C4_output_formula [2, 1] 2 (1/2) 0 0 0 rfl (by norm_num)

/-- Claim C5: `d = 1` reduces to ordinary differencing:
`fracDiff(series, 1, 0, 0)[i] = series[i] - series[i+1]` for `i < len-1`,
and the last entry passes through unchanged. -/
theorem C5_d_one_is_differencing (series : List ℚ) (len i : Nat)
    (_hser : series.length = len) (hlen : 2 ≤ len) (hi : i < len - 1) :
    (fracDiff series len 1 0 0).getD i 0 =
      series.getD i 0 - series.getD (i + 1) 0 ∧
    (fracDiff series len 1 0 0).getD (len - 1) 0 =
      series.getD (len - 1) 0 := by
  constructor
  · rw [fracDiff_full_getD series 1 (by omega) (show i < len by omega),
      Finset.sum_eq_sum_Ico_succ_bot (show i < len by omega),
      Finset.sum_eq_sum_Ico_succ_bot (show i + 1 < len by omega)]
    have hrest : ∑ j ∈ Finset.Ico (i + 1 + 1) len,
        series.getD j 0 * wRec 1 (j - i) = 0 := by
      apply Finset.sum_eq_zero
      intro j hj
      have hj' := Finset.mem_Ico.mp hj
      obtain ⟨t, ht⟩ : ∃ t, j - i = t + 2 := ⟨j - i - 2, by omega⟩
      rw [ht, wRec_d_one.2, mul_zero]
    rw [hrest, Nat.sub_self, Nat.add_sub_cancel_left, wRec_d_one.1]
    rw [show wRec (1 : ℚ) 0 = 1 from rfl]
    ring
  · exact fracDiff_last_getD series 1 (by omega)

/-- Witness for C5 at `series = [2, 1, 3]`, `i = 0`. -/
theorem C5_witness :
    (fracDiff [2, 1, 3] 3 1 0 0).getD 0 0 =
      ([2, 1, 3] : List ℚ).getD 0 0 - ([2, 1, 3] : List ℚ).getD 1 0 ∧
    (fracDiff [2, 1, 3] 3 1 0 0).getD 2 0 = ([2, 1, 3] : List ℚ).getD 2 0 :=
  C5_d_one_is_differencing [2, 1, 3] 3 0 rfl (by norm_num) (by norm_num)

/-- Claim C6: `d = -1` reduces to a reverse cumulative sum:
`fracDiff(series, -1, 0, 0)[i] = Σ_{j ∈ [i, len)} series[j]`. -/
theorem C6_d_neg_one_is_cumsum (series : List ℚ) (len i : Nat)
    (_hser : series.length = len) (hlen : 1 ≤ len) (hi : i < len) :
    (fracDiff series len (-1) 0 0).getD i 0 =
      ∑ j ∈ Finset.Ico i len, series.getD j 0 := by
  rw [fracDiff_full_getD series (-1) hlen hi]
  refine Finset.sum_congr rfl ?_
  intro j hj
  rw [wRec_neg_one, mul_one]

/-- Witness for C6 at `series = [2, 1, 3]`, `i = 1`. -/
theorem C6_witness :
    (fracDiff [2, 1, 3] 3 (-1) 0 0).getD 1 0 =
      ∑ j ∈ Finset.Ico 1 3, ([2, 1, 3] : List ℚ).getD j 0 :=
  C6_d_neg_one_is_cumsum [2, 1, 3] 3 1 rfl (by norm_num) (by norm_num)

/-- Claim C7: the last output entry of `fracDiff` equals the last input
entry, for every order `d`. -/
theorem C7_boundary_identity (series : List ℚ) (len : Nat) (d : ℚ)
    (_hser : series.length = len) (hlen : 1 ≤ len) :
    (fracDiff series len d 0 0).getD (len - 1) 0 =
      series.getD (len - 1) 0 :=
  fracDiff_last_getD series d hlen

/-- Witness for C7 at `series = [2, 1, 3]`, `d = 1/3`. -/
theorem C7_witness :
    (fracDiff [2, 1, 3] 3 (1/3) 0 0).getD 2 0 = ([2, 1, 3] : List ℚ).getD 2 0 :=
  C7_boundary_identity [2, 1, 3] 3 (1/3) rfl (by norm_num)

/-- Claim C8: the number of committed weights is monotonically non-increasing
in the threshold, and once the threshold reaches `|d|` only `weight[0]`
survives and `fracDiff` returns the series unchanged. -/
theorem C8_threshold_truncation (d : ℚ) (length useNWeights : Nat)
    (series : List ℚ) (t1 t2 tbig : ℚ)
    (hser : series.length = length) (hlen : 1 ≤ length)
    (h12 : t1 ≤ t2) (hbig : |d| ≤ tbig) :
    wcountOf d length t2 useNWeights ≤ wcountOf d length t1 useNWeights ∧
    wcountOf d length tbig useNWeights = 1 ∧
    fracDiff series length d tbig useNWeights = series := by
  have hmono : wcountOf d length t2 useNWeights ≤
      wcountOf d length t1 useNWeights := by
    by_contra hc
    push_neg at hc
    have hK1pos : 1 ≤ wcountOf d length t1 useNWeights :=
      wcountOf_pos d t1 useNWeights hlen
    have hK2le : wcountOf d length t2 useNWeights ≤ length :=
      wcountOf_le_length d t2 useNWeights hlen
    have hne := findWeights_no_early d t2 useNWeights hlen hK1pos hc
    rcases findWeights_stop d t1 useNWeights hlen with hs | hs | hs
    · omega
    · exact absurd (le_trans hs h12) (not_le.mpr hne.1)
    · exact hne.2 hs
  have hone : wcountOf d length tbig useNWeights = 1 := by
    have hpos := wcountOf_pos d tbig useNWeights hlen
    by_contra hc
    have hne := findWeights_no_early d tbig useNWeights hlen (le_refl 1)
      (by omega)
    have habs : |wRec d 1| = |d| := by rw [wRec_one_val, abs_neg]
    rw [habs] at hne
    exact absurd hbig (not_le.mpr hne.1)
  refine ⟨hmono, hone, ?_⟩
  apply list_eq_of_getD
  · rw [fracDiff_length, hser]
  · intro i hi
    rw [fracDiff_length] at hi
    rw [fracDiff_getD series length d tbig useNWeights hi]
    have hmem : i ∈ Finset.Ico i length := Finset.mem_Ico.mpr ⟨le_refl i, hi⟩
    have hz : ∀ j ∈ Finset.Ico i length, j ≠ i →
        series.getD j 0 *
          (findWeights_ffd d length tbig useNWeights).getD (j - i) 0 = 0 := by
      intro j hj hne
      have hj' := Finset.mem_Ico.mp hj
      rw [findWeights_getD_ge d tbig useNWeights hlen (by omega), mul_zero]
    rw [Finset.sum_eq_single_of_mem i hmem hz, Nat.sub_self,
      findWeights_getD_lt d tbig useNWeights hlen (by omega)]
    rw [show wRec d 0 = (1 : ℚ) from rfl, mul_one]

/-- Witness for C8 at `d = 1/2`, `series = [3, 4]`, thresholds `0 ≤ 1/4`,
big threshold `1/2 = |d|`. -/
theorem C8_witness :
    wcountOf (1/2) 2 (1/4) 0 ≤ wcountOf (1/2) 2 0 0 ∧
    wcountOf (1/2) 2 (1/2) 0 = 1 ∧
    fracDiff [3, 4] 2 (1/2) (1/2) 0 = [3, 4] :=
  C8_threshold_truncation (1/2) 2 0 [3, 4] 0 (1/4) (1/2) rfl (by norm_num)
    (by norm_num)
    (by rw [abs_of_nonneg (show (0 : ℚ) ≤ 1/2 by norm_num)])

/-- Claim C9: with a positive cap `useNWeights = m`, at most `m + 1` weights
are committed, every position at or past the committed prefix is zero, and
the convolution truncates to a window of at most `m + 1` weights. -/
theorem C9_weight_cap (d threshold : ℚ) (len m i j : Nat) (series : List ℚ)
    (_hser : series.length = len) (hlen : 1 ≤ len) (hm : 0 < m)
    (hj : wcountOf d len threshold m ≤ j) (hi : i < len) :
    wcountOf d len threshold m ≤ m + 1 ∧
    (findWeights_ffd d len threshold m).getD j 0 = 0 ∧
    (fracDiff series len d threshold m).getD i 0 =
      ∑ j2 ∈ Finset.Ico i (min (i + (m + 1)) len),
        series.getD j2 0 * (findWeights_ffd d len threshold m).getD (j2 - i) 0 := by
  have hcap : wcountOf d len threshold m ≤ m := by
    by_contra hc
    push_neg at hc
    have hne := findWeights_no_early d threshold m hlen (by omega) hc
    exact hne.2 ⟨hm, le_refl m⟩
  refine ⟨by omega, findWeights_getD_ge d threshold m hlen hj, ?_⟩
  rw [fracDiff_getD series len d threshold m hi]
  have hmid : i ≤ min (i + (m + 1)) len := by omega
  have hmid2 : min (i + (m + 1)) len ≤ len := by omega
  rw [← Finset.sum_Ico_consecutive _ hmid hmid2]
  have hz : ∑ j2 ∈ Finset.Ico (min (i + (m + 1)) len) len,
      series.getD j2 0 *
        (findWeights_ffd d len threshold m).getD (j2 - i) 0 = 0 := by
    apply Finset.sum_eq_zero
    intro j2 hj2
    have hj2' := Finset.mem_Ico.mp hj2
    have hfar : m + 1 ≤ j2 - i := by omega
    rw [findWeights_getD_ge d threshold m hlen (by omega), mul_zero]
  rw [hz, add_zero]

/-- Witness for C9 at `d = 1/2`, `len = 5`, cap `m = 2`, `i = 0`, `j = 2`. -/
theorem C9_witness :
    wcountOf (1/2) 5 0 2 ≤ 2 + 1 ∧
    (findWeights_ffd (1/2) 5 0 2).getD 2 0 = 0 ∧
    (fracDiff [1, 2, 3, 4, 5] 5 (1/2) 0 2).getD 0 0 =
      ∑ j2 ∈ Finset.Ico 0 (min (0 + (2 + 1)) 5),
        ([1, 2, 3, 4, 5] : List ℚ).getD j2 0 *
          (findWeights_ffd (1/2) 5 0 2).getD (j2 - 0) 0 :=
  C9_weight_cap (1/2) 0 5 2 0 2 [1, 2, 3, 4, 5] rfl (by norm_num)
    (by norm_num)
    (by norm_num [wcountOf, findWeightsState, findWeightsAux])
    (by norm_num)

/-- Claim C10: under the precondition `len ≥ 1`, the bounds-checked variants
of `findWeights_ffd` and `fracDiff` (in which every array read and write
returns `none` when out of bounds) succeed and return exactly the unchecked
results: every access is in bounds. -/
theorem C10_memory_safety (series : List ℚ) (len : Nat) (d threshold : ℚ)
    (useNWeights : Nat) (hser : series.length = len) (hlen : 1 ≤ len) :
    findWeightsChecked d len threshold useNWeights =
      some (findWeights_ffd d len threshold useNWeights) ∧
    fracDiffChecked series len d threshold useNWeights =
      some (fracDiff series len d threshold useNWeights) :=
  ⟨findWeightsChecked_eq d threshold useNWeights hlen,
    fracDiffChecked_eq series d threshold useNWeights hser hlen⟩

/-- Witness for C10 at `series = [1, 2]`, `d = 1/2`. -/
theorem C10_witness :
    findWeightsChecked (1/2) 2 0 0 = some (findWeights_ffd (1/2) 2 0 0) ∧
    fracDiffChecked [1, 2] 2 (1/2) 0 0 = some (fracDiff [1, 2] 2 (1/2) 0 0) :=
  C10_memory_safety [1, 2] 2 (1/2) 0 0 rfl (by norm_num)

end Fracdiff
